import Mathlib

/-! Shallow embedding of `src/encoding.rs` from the meshopt-rs repository.

    Modelling conventions:
    * `f32` values are modelled by `F32`: a finite value is an exact rational,
      and the IEEE special values `+inf`, `-inf` and NaN are explicit
      constructors.  Finite subtraction and division are modelled exactly over
      `ℚ` (rounding and overflow of finite intermediate results are idealized
      away); the special-value cases and Rust's NaN-ignoring `f32::min` /
      `f32::max` semantics are modelled faithfully.
    * Rust slices and `Vec`s become `List`s; indexing `xs[j]` inside the loops
      becomes `List.getD j F32.nan` (every loop access is in bounds, so the
      default is never produced).
    * `size_of::<T>()` becomes an explicit width argument.
    * The opaque native codec behind `crate::ffi` becomes function arguments;
      an FFI call that fills a caller-allocated buffer through a raw pointer
      is modelled as a function returning the new buffer contents, whose
      length necessarily equals the allocated length.
    * Integer arithmetic that can overflow `i32` (the `(1 << bits) - 1`
      divisor in `EncodeHeader::new`) is modelled with checked operations
      returning `Option`, matching Rust's debug overflow-panic semantics. -/

/-- Model of an `f32` value: an exact finite rational, an infinity, or NaN. -/
inductive F32 where
  | fin (q : ℚ)
  | posInf
  | negInf
  | nan
deriving DecidableEq

/-- The rational value of `std::f32::MAX`, the largest finite `f32`:
    `(2 - 2 ^ (-23)) * 2 ^ 127 = 2 ^ 128 - 2 ^ 104`. -/
def f32MAXq : ℚ := 2 ^ 128 - 2 ^ 104

/-- `std::f32::MAX` as an `F32` value. -/
def f32MAX : F32 := F32.fin f32MAXq

/-- IEEE `<=` on f32: every comparison involving NaN is false. -/
def F32.le : F32 → F32 → Bool
  | F32.nan, _ => false
  | _, F32.nan => false
  | F32.negInf, _ => true
  | _, F32.negInf => false
  | _, F32.posInf => true
  | F32.posInf, _ => false
  | F32.fin a, F32.fin b => decide (a ≤ b)

/-- Rust `f32::min`: if one argument is NaN the other is returned, otherwise
    the smaller argument. -/
def F32.min (a b : F32) : F32 :=
  match a, b with
  | F32.nan, y => y
  | x, F32.nan => x
  | x, y => if F32.le x y then x else y

/-- Rust `f32::max`: if one argument is NaN the other is returned, otherwise
    the larger argument. -/
def F32.max (a b : F32) : F32 :=
  match a, b with
  | F32.nan, y => y
  | x, F32.nan => x
  | x, y => if F32.le x y then y else x

/-- f32 subtraction: exact on finite values, IEEE rules on special values
    (`inf - inf = NaN`, NaN propagates). -/
def F32.sub : F32 → F32 → F32
  | F32.nan, _ => F32.nan
  | _, F32.nan => F32.nan
  | F32.posInf, F32.posInf => F32.nan
  | F32.negInf, F32.negInf => F32.nan
  | F32.posInf, _ => F32.posInf
  | F32.negInf, _ => F32.negInf
  | F32.fin _, F32.posInf => F32.negInf
  | F32.fin _, F32.negInf => F32.posInf
  | F32.fin a, F32.fin b => F32.fin (a - b)

/-- f32 division: exact on finite values, IEEE rules on special values
    (division by zero gives a signed infinity, `0/0` and `inf/inf` give NaN;
    the model has a single unsigned zero). -/
def F32.div : F32 → F32 → F32
  | F32.nan, _ => F32.nan
  | _, F32.nan => F32.nan
  | F32.posInf, F32.posInf => F32.nan
  | F32.posInf, F32.negInf => F32.nan
  | F32.negInf, F32.posInf => F32.nan
  | F32.negInf, F32.negInf => F32.nan
  | F32.posInf, F32.fin b => if b < 0 then F32.negInf else F32.posInf
  | F32.negInf, F32.fin b => if b < 0 then F32.posInf else F32.negInf
  | F32.fin _, F32.posInf => F32.fin 0
  | F32.fin _, F32.negInf => F32.fin 0
  | F32.fin a, F32.fin b =>
      if b = 0 then
        (if a = 0 then F32.nan else if 0 < a then F32.posInf else F32.negInf)
      else F32.fin (a / b)

/-- Modelled from the spec: `rcp_safe` lives in `crate::utilities`, whose
    source file is not part of the provided sources.  Spec section 7 fixes its
    behaviour exactly: `rcp_safe(0) == 0`, `rcp_safe(x) == 1/x` otherwise. -/
def rcp_safe (x : F32) : F32 :=
  if x = F32.fin 0 then F32.fin 0 else F32.div (F32.fin 1) x

/-- First loop of `calc_pos_offset_and_scale`: for `i in 0..n`, fold the
    componentwise `f32::min` of vertex `i`'s coordinates into the offset
    accumulator, starting from `[f32::MAX; 3]`.  `posMinLoop ps n` is the
    accumulator after the iterations `i = 0, …, n-1`. -/
def posMinLoop (positions : List F32) : Nat → F32 × F32 × F32
  | 0 => (f32MAX, f32MAX, f32MAX)
  | n + 1 =>
    let o := posMinLoop positions n
    (F32.min o.1 (positions.getD (n * 3) F32.nan),
     F32.min o.2.1 (positions.getD (n * 3 + 1) F32.nan),
     F32.min o.2.2 (positions.getD (n * 3 + 2) F32.nan))

/-- Second loop of `calc_pos_offset_and_scale`: for `i in 0..n`, fold
    `pos_scale = pos_scale.max(positions[i*3+k] - pos_offset[k])` for
    `k = 0, 1, 2` in order, starting from `0f32`, with the offsets fixed. -/
def posScaleLoop (positions : List F32) (off : F32 × F32 × F32) : Nat → F32
  | 0 => F32.fin 0
  | n + 1 =>
    let s := posScaleLoop positions off n
    F32.max
      (F32.max
        (F32.max s (F32.sub (positions.getD (n * 3) F32.nan) off.1))
        (F32.sub (positions.getD (n * 3 + 1) F32.nan) off.2.1))
      (F32.sub (positions.getD (n * 3 + 2) F32.nan) off.2.2)

/-- `calc_pos_offset_and_scale` from `src/encoding.rs`: two passes over the
    `positions.len() / 3` full vertices; pass 1 computes the componentwise
    minimum offsets, pass 2 the single shared scale. -/
def calc_pos_offset_and_scale (positions : List F32) : (F32 × F32 × F32) × F32 :=
  let n := positions.length / 3
  let pos_offset := posMinLoop positions n
  (pos_offset, posScaleLoop positions pos_offset n)

/-- `calc_pos_offset_and_scale_inverse` from `src/encoding.rs`. -/
def calc_pos_offset_and_scale_inverse (positions : List F32) : (F32 × F32 × F32) × F32 :=
  let r := calc_pos_offset_and_scale positions
  (r.1, rcp_safe r.2)

/-- First loop of `calc_uv_offset_and_scale`: componentwise minimum of the
    `coords.len() / 2` UV pairs, starting from `[f32::MAX; 2]`. -/
def uvMinLoop (coords : List F32) : Nat → F32 × F32
  | 0 => (f32MAX, f32MAX)
  | n + 1 =>
    let o := uvMinLoop coords n
    (F32.min o.1 (coords.getD (n * 2) F32.nan),
     F32.min o.2 (coords.getD (n * 2 + 1) F32.nan))

/-- Second loop of `calc_uv_offset_and_scale`: per-axis independent maxima of
    the deviations from the fixed offsets, starting from `[0f32; 2]`. -/
def uvScaleLoop (coords : List F32) (off : F32 × F32) : Nat → F32 × F32
  | 0 => (F32.fin 0, F32.fin 0)
  | n + 1 =>
    let s := uvScaleLoop coords off n
    (F32.max s.1 (F32.sub (coords.getD (n * 2) F32.nan) off.1),
     F32.max s.2 (F32.sub (coords.getD (n * 2 + 1) F32.nan) off.2))

/-- `calc_uv_offset_and_scale` from `src/encoding.rs`. -/
def calc_uv_offset_and_scale (coords : List F32) : (F32 × F32) × (F32 × F32) :=
  let n := coords.length / 2
  let uv_offset := uvMinLoop coords n
  (uv_offset, uvScaleLoop coords uv_offset n)

/-- `calc_uv_offset_and_scale_inverse` from `src/encoding.rs`. -/
def calc_uv_offset_and_scale_inverse (coords : List F32) : (F32 × F32) × (F32 × F32) :=
  let r := calc_uv_offset_and_scale coords
  (r.1, (rcp_safe r.2.1, rcp_safe r.2.2))

/-- Claim C1 (counterexample): on the empty array `calc_pos_offset_and_scale`
    does not return `[+inf, +inf, +inf]` offsets with zero scale — the
    offsets stay at the loop's initial value `f32::MAX`, which is finite. -/
theorem calc_pos_empty_offset_not_infinity :
    calc_pos_offset_and_scale [] ≠ ((F32.posInf, F32.posInf, F32.posInf), F32.fin 0) := by
  decide

/-- Claim C1 (amended): empty input is accepted (not an error) and yields
    offset components equal to `f32::MAX` — the largest finite f32, not
    `+infinity` — together with zero scale, for both the position and the UV
    calculator. -/
theorem calc_offset_empty_input_values :
    calc_pos_offset_and_scale [] = ((f32MAX, f32MAX, f32MAX), F32.fin 0) ∧
    calc_uv_offset_and_scale [] = ((f32MAX, f32MAX), (F32.fin 0, F32.fin 0)) ∧
    f32MAX ≠ F32.posInf := by
  exact ⟨rfl, rfl, by decide⟩

/-- `f32::min` restricted to finite values is the rational `min`. -/
theorem F32.min_fin (a b : ℚ) : F32.min (F32.fin a) (F32.fin b) = F32.fin (Min.min a b) := by
  by_cases h : a ≤ b <;> simp [F32.min, F32.le, h, min_def]

/-- `f32::max` restricted to finite values is the rational `max`. -/
theorem F32.max_fin (a b : ℚ) : F32.max (F32.fin a) (F32.fin b) = F32.fin (Max.max a b) := by
  by_cases h : a ≤ b <;> simp [F32.max, F32.le, h, max_def]

/-- f32 subtraction restricted to finite values is exact rational subtraction. -/
theorem F32.sub_fin (a b : ℚ) : F32.sub (F32.fin a) (F32.fin b) = F32.fin (a - b) := rfl

/-- Rational analogue of the offset loops: fold `min` of `c 0, …, c (n-1)`
    into an accumulator starting at `a`. -/
def qMinLoop (c : Nat → ℚ) (a : ℚ) : Nat → ℚ
  | 0 => a
  | n + 1 => Min.min (qMinLoop c a n) (c n)

/-- Rational analogue of the per-axis UV scale loop: fold `max` of
    `d 0, …, d (n-1)` starting from `0`. -/
def qMaxLoop (d : Nat → ℚ) : Nat → ℚ
  | 0 => 0
  | n + 1 => Max.max (qMaxLoop d n) (d n)

/-- Rational analogue of the position scale loop: fold `max` of the three
    per-axis deviations of each vertex, starting from `0`. -/
def qMax3Loop (d0 d1 d2 : Nat → ℚ) : Nat → ℚ
  | 0 => 0
  | n + 1 => Max.max (Max.max (Max.max (qMax3Loop d0 d1 d2 n) (d0 n)) (d1 n)) (d2 n)

theorem qMinLoop_le_init (c : Nat → ℚ) (a : ℚ) (n : Nat) : qMinLoop c a n ≤ a := by
  induction n with
  | zero => exact le_refl a
  | succ n ih => exact le_trans (min_le_left _ _) ih

theorem qMinLoop_le_val (c : Nat → ℚ) (a : ℚ) {i n : Nat} (h : i < n) :
    qMinLoop c a n ≤ c i := by
  induction n with
  | zero => omega
  | succ n ih =>
    rcases Nat.lt_succ_iff_lt_or_eq.mp h with h2 | h2
    · exact le_trans (min_le_left _ _) (ih h2)
    · subst h2; exact min_le_right _ _

theorem qMinLoop_attains (c : Nat → ℚ) (a : ℚ) (n : Nat) :
    qMinLoop c a n = a ∨ ∃ i, i < n ∧ qMinLoop c a n = c i := by
  induction n with
  | zero => exact Or.inl rfl
  | succ n ih =>
    rcases le_total (qMinLoop c a n) (c n) with h | h
    · rw [show qMinLoop c a (n + 1) = Min.min (qMinLoop c a n) (c n) from rfl, min_eq_left h]
      rcases ih with h2 | ⟨i, hi, h2⟩
      · exact Or.inl h2
      · exact Or.inr ⟨i, Nat.lt_succ_of_lt hi, h2⟩
    · exact Or.inr ⟨n, Nat.lt_succ_self n,
        by rw [show qMinLoop c a (n + 1) = Min.min (qMinLoop c a n) (c n) from rfl, min_eq_right h]⟩

theorem qMaxLoop_nonneg (d : Nat → ℚ) (n : Nat) : 0 ≤ qMaxLoop d n := by
  induction n with
  | zero => exact le_refl 0
  | succ n ih => exact le_trans ih (le_max_left _ _)

theorem qMaxLoop_ge (d : Nat → ℚ) {i n : Nat} (h : i < n) : d i ≤ qMaxLoop d n := by
  induction n with
  | zero => omega
  | succ n ih =>
    rcases Nat.lt_succ_iff_lt_or_eq.mp h with h2 | h2
    · exact le_trans (ih h2) (le_max_left _ _)
    · subst h2; exact le_max_right _ _

theorem qMaxLoop_attains (d : Nat → ℚ) (n : Nat) :
    qMaxLoop d n = 0 ∨ ∃ i, i < n ∧ qMaxLoop d n = d i := by
  induction n with
  | zero => exact Or.inl rfl
  | succ n ih =>
    rcases le_total (qMaxLoop d n) (d n) with h | h
    · exact Or.inr ⟨n, Nat.lt_succ_self n,
        by rw [show qMaxLoop d (n + 1) = Max.max (qMaxLoop d n) (d n) from rfl, max_eq_right h]⟩
    · rw [show qMaxLoop d (n + 1) = Max.max (qMaxLoop d n) (d n) from rfl, max_eq_left h]
      rcases ih with h2 | ⟨i, hi, h2⟩
      · exact Or.inl h2
      · exact Or.inr ⟨i, Nat.lt_succ_of_lt hi, h2⟩

theorem qMax3Loop_nonneg (d0 d1 d2 : Nat → ℚ) (n : Nat) : 0 ≤ qMax3Loop d0 d1 d2 n := by
  induction n with
  | zero => exact le_refl 0
  | succ n ih =>
    exact le_trans ih (le_trans (le_max_left _ _)
      (le_trans (le_max_left _ _) (le_max_left _ _)))

theorem qMax3Loop_ge0 (d0 d1 d2 : Nat → ℚ) {i n : Nat} (h : i < n) :
    d0 i ≤ qMax3Loop d0 d1 d2 n := by
  induction n with
  | zero => omega
  | succ n ih =>
    rcases Nat.lt_succ_iff_lt_or_eq.mp h with h2 | h2
    · exact le_trans (ih h2) (le_trans (le_max_left _ _)
        (le_trans (le_max_left _ _) (le_max_left _ _)))
    · subst h2
      exact le_trans (le_max_right _ _) (le_trans (le_max_left _ _) (le_max_left _ _))

theorem qMax3Loop_ge1 (d0 d1 d2 : Nat → ℚ) {i n : Nat} (h : i < n) :
    d1 i ≤ qMax3Loop d0 d1 d2 n := by
  induction n with
  | zero => omega
  | succ n ih =>
    rcases Nat.lt_succ_iff_lt_or_eq.mp h with h2 | h2
    · exact le_trans (ih h2) (le_trans (le_max_left _ _)
        (le_trans (le_max_left _ _) (le_max_left _ _)))
    · subst h2; exact le_trans (le_max_right _ _) (le_max_left _ _)

theorem qMax3Loop_ge2 (d0 d1 d2 : Nat → ℚ) {i n : Nat} (h : i < n) :
    d2 i ≤ qMax3Loop d0 d1 d2 n := by
  induction n with
  | zero => omega
  | succ n ih =>
    rcases Nat.lt_succ_iff_lt_or_eq.mp h with h2 | h2
    · exact le_trans (ih h2) (le_trans (le_max_left _ _)
        (le_trans (le_max_left _ _) (le_max_left _ _)))
    · subst h2; exact le_max_right _ _

theorem qMax3Loop_attains (d0 d1 d2 : Nat → ℚ) (n : Nat) :
    qMax3Loop d0 d1 d2 n = 0 ∨
      ∃ i, i < n ∧ (qMax3Loop d0 d1 d2 n = d0 i ∨ qMax3Loop d0 d1 d2 n = d1 i ∨
        qMax3Loop d0 d1 d2 n = d2 i) := by
  induction n with
  | zero => exact Or.inl rfl
  | succ n ih =>
    have hstep : qMax3Loop d0 d1 d2 (n + 1) =
        Max.max (Max.max (Max.max (qMax3Loop d0 d1 d2 n) (d0 n)) (d1 n)) (d2 n) := rfl
    rcases max_cases (Max.max (Max.max (qMax3Loop d0 d1 d2 n) (d0 n)) (d1 n)) (d2 n) with
      ⟨h1, _⟩ | ⟨h1, _⟩
    · rcases max_cases (Max.max (qMax3Loop d0 d1 d2 n) (d0 n)) (d1 n) with ⟨h2, _⟩ | ⟨h2, _⟩
      · rcases max_cases (qMax3Loop d0 d1 d2 n) (d0 n) with ⟨h3, _⟩ | ⟨h3, _⟩
        · rw [hstep, h1, h2, h3]
          rcases ih with h4 | ⟨i, hi, h4⟩
          · exact Or.inl h4
          · exact Or.inr ⟨i, Nat.lt_succ_of_lt hi, h4⟩
        · exact Or.inr ⟨n, Nat.lt_succ_self n, Or.inl (by rw [hstep, h1, h2, h3])⟩
      · exact Or.inr ⟨n, Nat.lt_succ_self n, Or.inr (Or.inl (by rw [hstep, h1, h2]))⟩
    · exact Or.inr ⟨n, Nat.lt_succ_self n, Or.inr (Or.inr (by rw [hstep, h1]))⟩

/-- On a list of finite values, the position offset loop is the rational
    `min`-fold, one component per axis. -/
theorem posMinLoop_fin (ps : List F32) (c : Nat → ℚ) :
    ∀ n, (∀ j, j < 3 * n → ps.getD j F32.nan = F32.fin (c j)) →
      posMinLoop ps n =
        (F32.fin (qMinLoop (fun i => c (i * 3)) f32MAXq n),
         F32.fin (qMinLoop (fun i => c (i * 3 + 1)) f32MAXq n),
         F32.fin (qMinLoop (fun i => c (i * 3 + 2)) f32MAXq n)) := by
  intro n
  induction n with
  | zero => intro _; rfl
  | succ n ih =>
    intro h
    have hn := ih (fun j hj => h j (by omega))
    show (F32.min (posMinLoop ps n).1 (ps.getD (n * 3) F32.nan),
          F32.min (posMinLoop ps n).2.1 (ps.getD (n * 3 + 1) F32.nan),
          F32.min (posMinLoop ps n).2.2 (ps.getD (n * 3 + 2) F32.nan)) = _
    rw [hn, h (n * 3) (by omega), h (n * 3 + 1) (by omega), h (n * 3 + 2) (by omega)]
    simp only [F32.min_fin]
    rfl

/-- On a list of finite values and finite offsets, the position scale loop is
    the rational fold of the maxima of the three per-axis deviations. -/
theorem posScaleLoop_fin (ps : List F32) (c : Nat → ℚ) (m0 m1 m2 : ℚ) :
    ∀ n, (∀ j, j < 3 * n → ps.getD j F32.nan = F32.fin (c j)) →
      posScaleLoop ps (F32.fin m0, F32.fin m1, F32.fin m2) n =
        F32.fin (qMax3Loop (fun i => c (i * 3) - m0) (fun i => c (i * 3 + 1) - m1)
          (fun i => c (i * 3 + 2) - m2) n) := by
  intro n
  induction n with
  | zero => intro _; rfl
  | succ n ih =>
    intro h
    have hn := ih (fun j hj => h j (by omega))
    show F32.max
        (F32.max
          (F32.max (posScaleLoop ps (F32.fin m0, F32.fin m1, F32.fin m2) n)
            (F32.sub (ps.getD (n * 3) F32.nan) (F32.fin m0)))
          (F32.sub (ps.getD (n * 3 + 1) F32.nan) (F32.fin m1)))
        (F32.sub (ps.getD (n * 3 + 2) F32.nan) (F32.fin m2)) = _
    rw [hn, h (n * 3) (by omega), h (n * 3 + 1) (by omega), h (n * 3 + 2) (by omega)]
    simp only [F32.sub_fin, F32.max_fin]
    rfl

/-- On a list of finite values, the UV offset loop is the rational `min`-fold,
    one component per axis. -/
theorem uvMinLoop_fin (cs : List F32) (c : Nat → ℚ) :
    ∀ n, (∀ j, j < 2 * n → cs.getD j F32.nan = F32.fin (c j)) →
      uvMinLoop cs n =
        (F32.fin (qMinLoop (fun i => c (i * 2)) f32MAXq n),
         F32.fin (qMinLoop (fun i => c (i * 2 + 1)) f32MAXq n)) := by
  intro n
  induction n with
  | zero => intro _; rfl
  | succ n ih =>
    intro h
    have hn := ih (fun j hj => h j (by omega))
    show (F32.min (uvMinLoop cs n).1 (cs.getD (n * 2) F32.nan),
          F32.min (uvMinLoop cs n).2 (cs.getD (n * 2 + 1) F32.nan)) = _
    rw [hn, h (n * 2) (by omega), h (n * 2 + 1) (by omega)]
    simp only [F32.min_fin]
    rfl

/-- On a list of finite values and finite offsets, the UV scale loop is the
    pair of independent per-axis rational `max`-folds of the deviations. -/
theorem uvScaleLoop_fin (cs : List F32) (c : Nat → ℚ) (m0 m1 : ℚ) :
    ∀ n, (∀ j, j < 2 * n → cs.getD j F32.nan = F32.fin (c j)) →
      uvScaleLoop cs (F32.fin m0, F32.fin m1) n =
        (F32.fin (qMaxLoop (fun i => c (i * 2) - m0) n),
         F32.fin (qMaxLoop (fun i => c (i * 2 + 1) - m1) n)) := by
  intro n
  induction n with
  | zero => intro _; rfl
  | succ n ih =>
    intro h
    have hn := ih (fun j hj => h j (by omega))
    show (F32.max (uvScaleLoop cs (F32.fin m0, F32.fin m1) n).1
            (F32.sub (cs.getD (n * 2) F32.nan) (F32.fin m0)),
          F32.max (uvScaleLoop cs (F32.fin m0, F32.fin m1) n).2
            (F32.sub (cs.getD (n * 2 + 1) F32.nan) (F32.fin m1))) = _
    rw [hn, h (n * 2) (by omega), h (n * 2 + 1) (by omega)]
    simp only [F32.sub_fin, F32.max_fin]
    rfl

/-- Indexing a mapped list of rationals below its length produces the mapped
    element. -/
theorem getD_map_fin (qs : List ℚ) :
    ∀ j, j < qs.length → (qs.map F32.fin).getD j F32.nan = F32.fin (qs.getD j 0) := by
  induction qs with
  | nil => intro j h; simp at h
  | cons q l ih =>
    intro j h
    cases j with
    | zero => rfl
    | succ j =>
      simp only [List.map_cons, List.getD_cons_succ]
      exact ih j (by simpa using h)

/-- An in-bounds `getD` access returns a member of the list. -/
theorem getD_mem_of_lt (qs : List ℚ) :
    ∀ j, j < qs.length → qs.getD j 0 ∈ qs := by
  induction qs with
  | nil => intro j h; simp at h
  | cons q l ih =>
    intro j h
    cases j with
    | zero => exact List.mem_cons_self q l
    | succ j =>
      rw [List.getD_cons_succ]
      exact List.mem_cons_of_mem q (ih j (by simpa using h))

/-- Claim C3 (counterexample): the offset is not always the minimum of the
    coordinates.  For the single vertex `(+inf, +inf, +inf)` the minimum over
    all vertices of the x-coordinate is `+inf`, but the returned offset is the
    loop's initial accumulator `f32::MAX`, because `f32::MAX.min(+inf)` keeps
    `f32::MAX`. -/
theorem calc_pos_offset_not_min_on_infinite_input :
    ([F32.posInf, F32.posInf, F32.posInf] : List F32).length / 3 = 1 ∧
    (calc_pos_offset_and_scale [F32.posInf, F32.posInf, F32.posInf]).1.1 ≠
      ([F32.posInf, F32.posInf, F32.posInf] : List F32).getD 0 F32.nan := by
  decide

/-- Claim C3 (amended): restricted to non-empty, stride-aligned position
    arrays of finite coordinates (each at most `f32::MAX`), the function
    returns per-axis offsets `m0, m1, m2` that are lower bounds of, and
    attained by, the respective axis coordinates — i.e. the per-axis minima —
    and a single shared scale `s ≥ 0` that bounds every per-axis deviation
    `coordinate − offset`, is attained by one of them (i.e. is their maximum
    over all vertices and axes, computed from the already-fixed offsets), and
    places every coordinate inside `[offset, offset + scale]`. -/
theorem calc_pos_offset_and_scale_bounds (qs : List ℚ) (hne : qs ≠ [])
    (hmod : qs.length % 3 = 0) (hbound : ∀ q ∈ qs, q ≤ f32MAXq) :
    ∃ m0 m1 m2 s : ℚ,
      calc_pos_offset_and_scale (qs.map F32.fin) =
        ((F32.fin m0, F32.fin m1, F32.fin m2), F32.fin s) ∧
      0 ≤ s ∧
      (∀ i, i < qs.length / 3 →
        (m0 ≤ qs.getD (i * 3) 0 ∧ qs.getD (i * 3) 0 ≤ m0 + s) ∧
        (m1 ≤ qs.getD (i * 3 + 1) 0 ∧ qs.getD (i * 3 + 1) 0 ≤ m1 + s) ∧
        (m2 ≤ qs.getD (i * 3 + 2) 0 ∧ qs.getD (i * 3 + 2) 0 ≤ m2 + s)) ∧
      (∃ i, i < qs.length / 3 ∧ m0 = qs.getD (i * 3) 0) ∧
      (∃ i, i < qs.length / 3 ∧ m1 = qs.getD (i * 3 + 1) 0) ∧
      (∃ i, i < qs.length / 3 ∧ m2 = qs.getD (i * 3 + 2) 0) ∧
      (∀ i, i < qs.length / 3 →
        qs.getD (i * 3) 0 - m0 ≤ s ∧ qs.getD (i * 3 + 1) 0 - m1 ≤ s ∧
        qs.getD (i * 3 + 2) 0 - m2 ≤ s) ∧
      (∃ i, i < qs.length / 3 ∧
        (s = qs.getD (i * 3) 0 - m0 ∨ s = qs.getD (i * 3 + 1) 0 - m1 ∨
         s = qs.getD (i * 3 + 2) 0 - m2)) := by
  have hlen : qs.length ≠ 0 := fun h => hne (List.length_eq_zero.mp h)
  have hc : ∀ j, j < 3 * (qs.length / 3) →
      (qs.map F32.fin).getD j F32.nan = F32.fin (qs.getD j 0) :=
    fun j hj => getD_map_fin qs j (by omega)
  have hoff := posMinLoop_fin (qs.map F32.fin) (fun j => qs.getD j 0) (qs.length / 3) hc
  have hsc := posScaleLoop_fin (qs.map F32.fin) (fun j => qs.getD j 0)
    (qMinLoop (fun i => qs.getD (i * 3) 0) f32MAXq (qs.length / 3))
    (qMinLoop (fun i => qs.getD (i * 3 + 1) 0) f32MAXq (qs.length / 3))
    (qMinLoop (fun i => qs.getD (i * 3 + 2) 0) f32MAXq (qs.length / 3))
    (qs.length / 3) hc
  set N := qs.length / 3 with hNdef
  have hn3 : 3 * N ≤ qs.length := by omega
  have hn1 : 1 ≤ N := by omega
  set m0 := qMinLoop (fun i => qs.getD (i * 3) 0) f32MAXq N with hm0
  set m1 := qMinLoop (fun i => qs.getD (i * 3 + 1) 0) f32MAXq N with hm1
  set m2 := qMinLoop (fun i => qs.getD (i * 3 + 2) 0) f32MAXq N with hm2
  set s := qMax3Loop (fun i => qs.getD (i * 3) 0 - m0) (fun i => qs.getD (i * 3 + 1) 0 - m1)
    (fun i => qs.getD (i * 3 + 2) 0 - m2) N with hs
  have hres : calc_pos_offset_and_scale (qs.map F32.fin) =
      ((F32.fin m0, F32.fin m1, F32.fin m2), F32.fin s) := by
    show (posMinLoop (qs.map F32.fin) ((qs.map F32.fin).length / 3),
          posScaleLoop (qs.map F32.fin)
            (posMinLoop (qs.map F32.fin) ((qs.map F32.fin).length / 3))
            ((qs.map F32.fin).length / 3)) = _
    rw [List.length_map, ← hNdef, hoff, hsc]
  have hattain0 : ∃ i, i < N ∧ m0 = qs.getD (i * 3) 0 := by
    rcases qMinLoop_attains (fun i => qs.getD (i * 3) 0) f32MAXq N with h | ⟨i, hi, h⟩
    · refine ⟨0, hn1, ?_⟩
      have hle : m0 ≤ qs.getD (0 * 3) 0 := qMinLoop_le_val _ _ hn1
      have hub : qs.getD (0 * 3) 0 ≤ f32MAXq := hbound _ (getD_mem_of_lt qs (0 * 3) (by omega))
      rw [← hm0] at h
      linarith
    · exact ⟨i, hi, h⟩
  have hattain1 : ∃ i, i < N ∧ m1 = qs.getD (i * 3 + 1) 0 := by
    rcases qMinLoop_attains (fun i => qs.getD (i * 3 + 1) 0) f32MAXq N with h | ⟨i, hi, h⟩
    · refine ⟨0, hn1, ?_⟩
      have hle : m1 ≤ qs.getD (0 * 3 + 1) 0 := qMinLoop_le_val _ _ hn1
      have hub : qs.getD (0 * 3 + 1) 0 ≤ f32MAXq :=
        hbound _ (getD_mem_of_lt qs (0 * 3 + 1) (by omega))
      rw [← hm1] at h
      linarith
    · exact ⟨i, hi, h⟩
  have hattain2 : ∃ i, i < N ∧ m2 = qs.getD (i * 3 + 2) 0 := by
    rcases qMinLoop_attains (fun i => qs.getD (i * 3 + 2) 0) f32MAXq N with h | ⟨i, hi, h⟩
    · refine ⟨0, hn1, ?_⟩
      have hle : m2 ≤ qs.getD (0 * 3 + 2) 0 := qMinLoop_le_val _ _ hn1
      have hub : qs.getD (0 * 3 + 2) 0 ≤ f32MAXq :=
        hbound _ (getD_mem_of_lt qs (0 * 3 + 2) (by omega))
      rw [← hm2] at h
      linarith
    · exact ⟨i, hi, h⟩
  refine ⟨m0, m1, m2, s, hres, qMax3Loop_nonneg _ _ _ N, ?_, hattain0, hattain1, hattain2,
    ?_, ?_⟩
  · intro i hi
    have h0l : m0 ≤ qs.getD (i * 3) 0 := qMinLoop_le_val _ _ hi
    have h1l : m1 ≤ qs.getD (i * 3 + 1) 0 := qMinLoop_le_val _ _ hi
    have h2l : m2 ≤ qs.getD (i * 3 + 2) 0 := qMinLoop_le_val _ _ hi
    have h0u : qs.getD (i * 3) 0 - m0 ≤ s := qMax3Loop_ge0 _ _ _ hi
    have h1u : qs.getD (i * 3 + 1) 0 - m1 ≤ s := qMax3Loop_ge1 _ _ _ hi
    have h2u : qs.getD (i * 3 + 2) 0 - m2 ≤ s := qMax3Loop_ge2 _ _ _ hi
    exact ⟨⟨h0l, by linarith⟩, ⟨h1l, by linarith⟩, ⟨h2l, by linarith⟩⟩
  · intro i hi
    exact ⟨qMax3Loop_ge0 _ _ _ hi, qMax3Loop_ge1 _ _ _ hi, qMax3Loop_ge2 _ _ _ hi⟩
  · rcases qMax3Loop_attains (fun i => qs.getD (i * 3) 0 - m0)
      (fun i => qs.getD (i * 3 + 1) 0 - m1) (fun i => qs.getD (i * 3 + 2) 0 - m2) N with
      h | ⟨i, hi, h⟩
    · obtain ⟨i, hi, hia⟩ := hattain0
      refine ⟨i, hi, Or.inl ?_⟩
      rw [← hs] at h
      rw [h, ← hia]
      ring
    · rw [← hs] at h
      exact ⟨i, hi, h⟩

/-- Claim C3 (witness): on the single finite vertex `(1, 2, 3)` the amended
    theorem applies; the result there is offset `(1, 2, 3)` and scale `0`. -/
theorem calc_pos_offset_and_scale_bounds_witness :
    calc_pos_offset_and_scale ([1, 2, 3].map F32.fin) =
      ((F32.fin 1, F32.fin 2, F32.fin 3), F32.fin 0) ∧
    (∃ m0 m1 m2 s : ℚ,
      calc_pos_offset_and_scale ([1, 2, 3].map F32.fin) =
        ((F32.fin m0, F32.fin m1, F32.fin m2), F32.fin s) ∧ 0 ≤ s) := by
  obtain ⟨m0, m1, m2, s, h1, h2, _⟩ :=
    calc_pos_offset_and_scale_bounds [1, 2, 3] (by decide) (by decide)
      (by
        intro q hq
        fin_cases hq <;> norm_num [f32MAXq])
  refine ⟨?_, m0, m1, m2, s, h1, h2⟩
  norm_num [calc_pos_offset_and_scale, posMinLoop, posScaleLoop, F32.min, F32.max, F32.sub,
    F32.le, f32MAX, f32MAXq]

/-- Claim C4 (counterexample): the per-axis scale is not always the maximum
    over all vertices of `coordinate - offset`.  For the single UV vertex
    `(NaN, 0)` that maximum on the U axis is the sole deviation
    `NaN - offset = NaN`, but the code returns scale `0` because Rust's
    `f32::max` ignores a NaN argument. -/
theorem calc_uv_scale_skips_nan_deviation :
    ([F32.nan, F32.fin 0] : List F32).length / 2 = 1 ∧
    (calc_uv_offset_and_scale [F32.nan, F32.fin 0]).2.1 ≠
      F32.sub (([F32.nan, F32.fin 0] : List F32).getD 0 F32.nan)
        ((calc_uv_offset_and_scale [F32.nan, F32.fin 0]).1.1) := by
  norm_num [calc_uv_offset_and_scale, uvMinLoop, uvScaleLoop, F32.min, F32.max, F32.sub,
    F32.le, f32MAX, f32MAXq]
  decide

/-- Claim C4 (amended): restricted to non-empty, stride-aligned UV arrays of
    finite coordinates (each at most `f32::MAX`), the two scale components
    are computed independently per axis: each `s_axis` is `≥ 0`, bounds every
    deviation of that axis, and is attained by a deviation of that same axis —
    i.e. `s_axis` is the maximum over all vertices of
    `coordinate[axis] - offset[axis]`, with no shared maximum between U and
    V.  The offsets are the per-axis minima. -/
theorem calc_uv_offset_and_scale_per_axis (qs : List ℚ) (hne : qs ≠ [])
    (hmod : qs.length % 2 = 0) (hbound : ∀ q ∈ qs, q ≤ f32MAXq) :
    ∃ o0 o1 s0 s1 : ℚ,
      calc_uv_offset_and_scale (qs.map F32.fin) =
        ((F32.fin o0, F32.fin o1), (F32.fin s0, F32.fin s1)) ∧
      0 ≤ s0 ∧ 0 ≤ s1 ∧
      (∀ i, i < qs.length / 2 → o0 ≤ qs.getD (i * 2) 0 ∧ o1 ≤ qs.getD (i * 2 + 1) 0) ∧
      (∃ i, i < qs.length / 2 ∧ o0 = qs.getD (i * 2) 0) ∧
      (∃ i, i < qs.length / 2 ∧ o1 = qs.getD (i * 2 + 1) 0) ∧
      (∀ i, i < qs.length / 2 →
        qs.getD (i * 2) 0 - o0 ≤ s0 ∧ qs.getD (i * 2 + 1) 0 - o1 ≤ s1) ∧
      (∃ i, i < qs.length / 2 ∧ s0 = qs.getD (i * 2) 0 - o0) ∧
      (∃ i, i < qs.length / 2 ∧ s1 = qs.getD (i * 2 + 1) 0 - o1) := by
  have hlen : qs.length ≠ 0 := fun h => hne (List.length_eq_zero.mp h)
  have hc : ∀ j, j < 2 * (qs.length / 2) →
      (qs.map F32.fin).getD j F32.nan = F32.fin (qs.getD j 0) :=
    fun j hj => getD_map_fin qs j (by omega)
  have hoff := uvMinLoop_fin (qs.map F32.fin) (fun j => qs.getD j 0) (qs.length / 2) hc
  have hsc := uvScaleLoop_fin (qs.map F32.fin) (fun j => qs.getD j 0)
    (qMinLoop (fun i => qs.getD (i * 2) 0) f32MAXq (qs.length / 2))
    (qMinLoop (fun i => qs.getD (i * 2 + 1) 0) f32MAXq (qs.length / 2))
    (qs.length / 2) hc
  set N := qs.length / 2 with hNdef
  have hn2 : 2 * N ≤ qs.length := by omega
  have hn1 : 1 ≤ N := by omega
  set o0 := qMinLoop (fun i => qs.getD (i * 2) 0) f32MAXq N with ho0
  set o1 := qMinLoop (fun i => qs.getD (i * 2 + 1) 0) f32MAXq N with ho1
  set s0 := qMaxLoop (fun i => qs.getD (i * 2) 0 - o0) N with hs0
  set s1 := qMaxLoop (fun i => qs.getD (i * 2 + 1) 0 - o1) N with hs1
  have hres : calc_uv_offset_and_scale (qs.map F32.fin) =
      ((F32.fin o0, F32.fin o1), (F32.fin s0, F32.fin s1)) := by
    show (uvMinLoop (qs.map F32.fin) ((qs.map F32.fin).length / 2),
          uvScaleLoop (qs.map F32.fin)
            (uvMinLoop (qs.map F32.fin) ((qs.map F32.fin).length / 2))
            ((qs.map F32.fin).length / 2)) = _
    rw [List.length_map, ← hNdef, hoff, hsc]
  have hattain0 : ∃ i, i < N ∧ o0 = qs.getD (i * 2) 0 := by
    rcases qMinLoop_attains (fun i => qs.getD (i * 2) 0) f32MAXq N with h | ⟨i, hi, h⟩
    · refine ⟨0, hn1, ?_⟩
      have hle : o0 ≤ qs.getD (0 * 2) 0 := qMinLoop_le_val _ _ hn1
      have hub : qs.getD (0 * 2) 0 ≤ f32MAXq := hbound _ (getD_mem_of_lt qs (0 * 2) (by omega))
      rw [← ho0] at h
      linarith
    · exact ⟨i, hi, h⟩
  have hattain1 : ∃ i, i < N ∧ o1 = qs.getD (i * 2 + 1) 0 := by
    rcases qMinLoop_attains (fun i => qs.getD (i * 2 + 1) 0) f32MAXq N with h | ⟨i, hi, h⟩
    · refine ⟨0, hn1, ?_⟩
      have hle : o1 ≤ qs.getD (0 * 2 + 1) 0 := qMinLoop_le_val _ _ hn1
      have hub : qs.getD (0 * 2 + 1) 0 ≤ f32MAXq :=
        hbound _ (getD_mem_of_lt qs (0 * 2 + 1) (by omega))
      rw [← ho1] at h
      linarith
    · exact ⟨i, hi, h⟩
  refine ⟨o0, o1, s0, s1, hres, qMaxLoop_nonneg _ N, qMaxLoop_nonneg _ N, ?_,
    hattain0, hattain1, ?_, ?_, ?_⟩
  · intro i hi
    exact ⟨qMinLoop_le_val _ _ hi, qMinLoop_le_val _ _ hi⟩
  · intro i hi
    exact ⟨qMaxLoop_ge _ hi, qMaxLoop_ge _ hi⟩
  · rcases qMaxLoop_attains (fun i => qs.getD (i * 2) 0 - o0) N with h | ⟨i, hi, h⟩
    · obtain ⟨i, hi, hia⟩ := hattain0
      refine ⟨i, hi, ?_⟩
      rw [← hs0] at h
      rw [h, ← hia]
      ring
    · rw [← hs0] at h
      exact ⟨i, hi, h⟩
  · rcases qMaxLoop_attains (fun i => qs.getD (i * 2 + 1) 0 - o1) N with h | ⟨i, hi, h⟩
    · obtain ⟨i, hi, hia⟩ := hattain1
      refine ⟨i, hi, ?_⟩
      rw [← hs1] at h
      rw [h, ← hia]
      ring
    · rw [← hs1] at h
      exact ⟨i, hi, h⟩

/-- Claim C4 (witness): on the finite UV array `[(0,0), (1,5)]` the amended
    theorem applies, and the concrete result is offset `(0,0)` with the
    per-axis independent scales `(1,5)` — the axes do not share a maximum. -/
theorem calc_uv_offset_and_scale_per_axis_witness :
    calc_uv_offset_and_scale ([0, 0, 1, 5].map F32.fin) =
      ((F32.fin 0, F32.fin 0), (F32.fin 1, F32.fin 5)) ∧
    (∃ o0 o1 s0 s1 : ℚ,
      calc_uv_offset_and_scale ([0, 0, 1, 5].map F32.fin) =
        ((F32.fin o0, F32.fin o1), (F32.fin s0, F32.fin s1)) ∧ 0 ≤ s0 ∧ 0 ≤ s1) := by
  obtain ⟨o0, o1, s0, s1, h1, h2, h3, _⟩ :=
    calc_uv_offset_and_scale_per_axis [0, 0, 1, 5] (by decide) (by decide)
      (by
        intro q hq
        fin_cases hq <;> norm_num [f32MAXq])
  refine ⟨?_, o0, o1, s0, s1, h1, h2, h3⟩
  norm_num [calc_uv_offset_and_scale, uvMinLoop, uvScaleLoop, F32.min, F32.max, F32.sub,
    F32.le, f32MAX, f32MAXq]

/-- `getD` below the taken length sees through `List.take`. -/
theorem getD_take_eq {α : Type} (l : List α) :
    ∀ m j : Nat, j < m → ∀ d : α, (l.take m).getD j d = l.getD j d := by
  induction l with
  | nil => intro m j _ d; simp
  | cons a t ih =>
    intro m j h d
    cases m with
    | zero => omega
    | succ m =>
      cases j with
      | zero => rfl
      | succ j =>
        simp only [List.take_succ_cons, List.getD_cons_succ]
        exact ih m j (by omega) d

/-- `getD` below the length of the left part sees through an append. -/
theorem getD_append_lt {α : Type} (l t : List α) :
    ∀ j : Nat, j < l.length → ∀ d : α, (l ++ t).getD j d = l.getD j d := by
  induction l with
  | nil => intro j h; simp at h
  | cons a r ih =>
    intro j h d
    cases j with
    | zero => rfl
    | succ j =>
      simp only [List.cons_append, List.getD_cons_succ]
      exact ih j (by simpa using h) d

/-- The position offset loop only reads indices below `3 * n`. -/
theorem posMinLoop_congr (ps qs : List F32) :
    ∀ n, (∀ j, j < 3 * n → ps.getD j F32.nan = qs.getD j F32.nan) →
      posMinLoop ps n = posMinLoop qs n := by
  intro n
  induction n with
  | zero => intro _; rfl
  | succ n ih =>
    intro h
    have hn := ih (fun j hj => h j (by omega))
    show (F32.min (posMinLoop ps n).1 (ps.getD (n * 3) F32.nan),
          F32.min (posMinLoop ps n).2.1 (ps.getD (n * 3 + 1) F32.nan),
          F32.min (posMinLoop ps n).2.2 (ps.getD (n * 3 + 2) F32.nan)) = _
    rw [hn, h (n * 3) (by omega), h (n * 3 + 1) (by omega), h (n * 3 + 2) (by omega)]
    rfl

/-- The position scale loop only reads indices below `3 * n`. -/
theorem posScaleLoop_congr (ps qs : List F32) (off : F32 × F32 × F32) :
    ∀ n, (∀ j, j < 3 * n → ps.getD j F32.nan = qs.getD j F32.nan) →
      posScaleLoop ps off n = posScaleLoop qs off n := by
  intro n
  induction n with
  | zero => intro _; rfl
  | succ n ih =>
    intro h
    have hn := ih (fun j hj => h j (by omega))
    show F32.max
        (F32.max
          (F32.max (posScaleLoop ps off n) (F32.sub (ps.getD (n * 3) F32.nan) off.1))
          (F32.sub (ps.getD (n * 3 + 1) F32.nan) off.2.1))
        (F32.sub (ps.getD (n * 3 + 2) F32.nan) off.2.2) = _
    rw [hn, h (n * 3) (by omega), h (n * 3 + 1) (by omega), h (n * 3 + 2) (by omega)]
    rfl

/-- The UV offset loop only reads indices below `2 * n`. -/
theorem uvMinLoop_congr (ps qs : List F32) :
    ∀ n, (∀ j, j < 2 * n → ps.getD j F32.nan = qs.getD j F32.nan) →
      uvMinLoop ps n = uvMinLoop qs n := by
  intro n
  induction n with
  | zero => intro _; rfl
  | succ n ih =>
    intro h
    have hn := ih (fun j hj => h j (by omega))
    show (F32.min (uvMinLoop ps n).1 (ps.getD (n * 2) F32.nan),
          F32.min (uvMinLoop ps n).2 (ps.getD (n * 2 + 1) F32.nan)) = _
    rw [hn, h (n * 2) (by omega), h (n * 2 + 1) (by omega)]
    rfl

/-- The UV scale loop only reads indices below `2 * n`. -/
theorem uvScaleLoop_congr (ps qs : List F32) (off : F32 × F32) :
    ∀ n, (∀ j, j < 2 * n → ps.getD j F32.nan = qs.getD j F32.nan) →
      uvScaleLoop ps off n = uvScaleLoop qs off n := by
  intro n
  induction n with
  | zero => intro _; rfl
  | succ n ih =>
    intro h
    have hn := ih (fun j hj => h j (by omega))
    show (F32.max (uvScaleLoop ps off n).1 (F32.sub (ps.getD (n * 2) F32.nan) off.1),
          F32.max (uvScaleLoop ps off n).2 (F32.sub (ps.getD (n * 2 + 1) F32.nan) off.2)) = _
    rw [hn, h (n * 2) (by omega), h (n * 2 + 1) (by omega)]
    rfl

/-- Two arrays with the same vertex count and the same in-range elements give
    the same position result. -/
theorem calc_pos_eq_of_same_reads (ps qs : List F32) (hn : ps.length / 3 = qs.length / 3)
    (h : ∀ j, j < 3 * (qs.length / 3) → ps.getD j F32.nan = qs.getD j F32.nan) :
    calc_pos_offset_and_scale ps = calc_pos_offset_and_scale qs := by
  show (posMinLoop ps (ps.length / 3),
        posScaleLoop ps (posMinLoop ps (ps.length / 3)) (ps.length / 3)) = _
  rw [hn, posMinLoop_congr ps qs _ h, posScaleLoop_congr ps qs _ _ h]
  rfl

/-- Two arrays with the same vertex count and the same in-range elements give
    the same UV result. -/
theorem calc_uv_eq_of_same_reads (ps qs : List F32) (hn : ps.length / 2 = qs.length / 2)
    (h : ∀ j, j < 2 * (qs.length / 2) → ps.getD j F32.nan = qs.getD j F32.nan) :
    calc_uv_offset_and_scale ps = calc_uv_offset_and_scale qs := by
  show (uvMinLoop ps (ps.length / 2),
        uvScaleLoop ps (uvMinLoop ps (ps.length / 2)) (ps.length / 2)) = _
  rw [hn, uvMinLoop_congr ps qs _ h, uvScaleLoop_congr ps qs _ _ h]
  rfl

/-- Claim C10 (counterexample): appending TWO extra floats to a well-formed
    UV array is a whole new vertex, not a trailing partial one, and changes
    the output: `[] ++ [0, 0]` no longer yields the degenerate
    `f32::MAX` offsets of the empty array. -/
theorem calc_uv_append_two_changes_output :
    (([] : List F32).length % 2 = 0) ∧
    calc_uv_offset_and_scale (([] : List F32) ++ [F32.fin 0, F32.fin 0]) ≠
      calc_uv_offset_and_scale [] := by
  refine ⟨rfl, ?_⟩
  have h1 : calc_uv_offset_and_scale (([] : List F32) ++ [F32.fin 0, F32.fin 0]) =
      ((F32.fin 0, F32.fin 0), (F32.fin 0, F32.fin 0)) := by
    norm_num [calc_uv_offset_and_scale, uvMinLoop, uvScaleLoop, F32.min, F32.max, F32.sub,
      F32.le, f32MAX, f32MAXq]
  have h2 : calc_uv_offset_and_scale [] = ((f32MAX, f32MAX), (F32.fin 0, F32.fin 0)) := rfl
  rw [h1, h2]
  simp only [ne_eq, Prod.mk.injEq, f32MAX, F32.fin.injEq]
  norm_num [f32MAXq]

/-- Claim C10 (amended): both calculators ignore a trailing partial vertex:
    the result equals the result on the prefix of length `stride * (len /
    stride)`, and appending fewer extra floats than the stride (one or two
    for positions, one for UVs) to a well-formed array never changes the
    output. -/
theorem calc_ignores_trailing_partial_vertex (ps : List F32) (x y : F32) :
    calc_pos_offset_and_scale ps =
      calc_pos_offset_and_scale (ps.take (3 * (ps.length / 3))) ∧
    calc_uv_offset_and_scale ps =
      calc_uv_offset_and_scale (ps.take (2 * (ps.length / 2))) ∧
    (ps.length % 3 = 0 →
      calc_pos_offset_and_scale (ps ++ [x]) = calc_pos_offset_and_scale ps ∧
      calc_pos_offset_and_scale (ps ++ [x, y]) = calc_pos_offset_and_scale ps) ∧
    (ps.length % 2 = 0 →
      calc_uv_offset_and_scale (ps ++ [x]) = calc_uv_offset_and_scale ps) := by
  have hlen3 : (ps.take (3 * (ps.length / 3))).length = 3 * (ps.length / 3) := by
    rw [List.length_take]; omega
  have hlen2 : (ps.take (2 * (ps.length / 2))).length = 2 * (ps.length / 2) := by
    rw [List.length_take]; omega
  refine ⟨?_, ?_, ?_, ?_⟩
  · refine (calc_pos_eq_of_same_reads _ ps ?_ ?_).symm
    · rw [hlen3]; omega
    · exact fun j hj => getD_take_eq ps _ j (by omega) _
  · refine (calc_uv_eq_of_same_reads _ ps ?_ ?_).symm
    · rw [hlen2]; omega
    · exact fun j hj => getD_take_eq ps _ j (by omega) _
  · intro hmod
    constructor
    · refine calc_pos_eq_of_same_reads _ ps ?_ ?_
      · rw [List.length_append]; simp; omega
      · exact fun j hj => getD_append_lt ps _ j (by omega) _
    · refine calc_pos_eq_of_same_reads _ ps ?_ ?_
      · rw [List.length_append]; simp; omega
      · exact fun j hj => getD_append_lt ps _ j (by omega) _
  · intro hmod
    refine calc_uv_eq_of_same_reads _ ps ?_ ?_
    · rw [List.length_append]; simp; omega
    · exact fun j hj => getD_append_lt ps _ j (by omega) _

/-- Claim C10 (witness): appending one then two extra floats to the
    well-formed position array `[1, 2, 3]` leaves the result unchanged, and
    the prefix property holds there. -/
theorem calc_ignores_trailing_partial_vertex_witness :
    calc_pos_offset_and_scale ([F32.fin 1, F32.fin 2, F32.fin 3] ++ [F32.fin 9]) =
      calc_pos_offset_and_scale [F32.fin 1, F32.fin 2, F32.fin 3] ∧
    calc_pos_offset_and_scale ([F32.fin 1, F32.fin 2, F32.fin 3] ++ [F32.fin 9, F32.fin 8]) =
      calc_pos_offset_and_scale [F32.fin 1, F32.fin 2, F32.fin 3] := by
  exact (calc_ignores_trailing_partial_vertex [F32.fin 1, F32.fin 2, F32.fin 3]
    (F32.fin 9) (F32.fin 8)).2.2.1 (by decide)

/-- Claim C7: the inverse variants return the same offsets as the non-inverse
    calculators and apply `rcp_safe` to each scale; `rcp_safe` maps a zero
    scale to `0` — never to infinity or NaN — and any other value to `1/x`. -/
theorem calc_inverse_rcp_safe_spec (ps cs : List F32) :
    (calc_pos_offset_and_scale_inverse ps).1 = (calc_pos_offset_and_scale ps).1 ∧
    (calc_pos_offset_and_scale_inverse ps).2 = rcp_safe (calc_pos_offset_and_scale ps).2 ∧
    (calc_uv_offset_and_scale_inverse cs).1 = (calc_uv_offset_and_scale cs).1 ∧
    (calc_uv_offset_and_scale_inverse cs).2.1 = rcp_safe (calc_uv_offset_and_scale cs).2.1 ∧
    (calc_uv_offset_and_scale_inverse cs).2.2 = rcp_safe (calc_uv_offset_and_scale cs).2.2 ∧
    rcp_safe (F32.fin 0) = F32.fin 0 ∧
    rcp_safe (F32.fin 0) ≠ F32.posInf ∧
    rcp_safe (F32.fin 0) ≠ F32.nan ∧
    (∀ x : F32, rcp_safe x =
      if x = F32.fin 0 then F32.fin 0 else F32.div (F32.fin 1) x) := by
  refine ⟨rfl, rfl, rfl, rfl, rfl, by simp [rcp_safe], ?_, ?_, fun x => rfl⟩
  · simp [rcp_safe]
  · simp [rcp_safe]

/-- Checked i32 left shift of the literal `1` by a `u32` amount, as in
    `(1 << pos_bits)` from `EncodeHeader::new`: a shift amount of 32 or more
    is an overflow panic in debug builds (modelled as `none`); an in-range
    shift keeps the low 32 bits in two's complement, so `1 << 31` is
    `i32::MIN` without a panic. -/
def i32_shl_one (bits : Nat) : Option Int :=
  if bits < 32 then some ((2 ^ bits + 2147483648) % 4294967296 - 2147483648) else none

/-- Checked i32 subtraction: a result outside `[i32::MIN, i32::MAX]` is an
    overflow panic in debug builds (modelled as `none`). -/
def i32_sub_checked (a b : Int) : Option Int :=
  if -2147483648 ≤ a - b ∧ a - b ≤ 2147483647 then some (a - b) else none

/-- The i32 divisor `(1 << bits) - 1` computed by `EncodeHeader::new`. -/
def shift_divisor (bits : Nat) : Option Int :=
  match i32_shl_one bits with
  | none => none
  | some s => i32_sub_checked s 1

/-- `EncodeHeader` from `src/encoding.rs`: the OPTM container header.
    `u32` fields are modelled as `Nat`, `[f32; k]` fields as tuples. -/
structure EncodeHeader where
  magic : List Char
  group_count : Nat
  vertex_count : Nat
  index_count : Nat
  vertex_data_size : Nat
  index_data_size : Nat
  pos_offset : F32 × F32 × F32
  pos_scale : F32
  uv_offset : F32 × F32
  uv_scale : F32 × F32
  reserved : Nat × Nat
deriving DecidableEq

/-- `EncodeHeader::new` from `src/encoding.rs`.  The divisor
    `((1 << bits) - 1) as f32` is computed in checked i32 arithmetic (debug
    semantics: `none` models the overflow panic); the cast of the i32 divisor
    to f32 is modelled exactly. -/
def EncodeHeader.new (group_count vertex_count index_count vertex_data_size
    index_data_size : Nat) (pos_offset : F32 × F32 × F32) (pos_scale : F32)
    (uv_offset : F32 × F32) (uv_scale : F32 × F32) (pos_bits uv_bits : Nat) :
    Option EncodeHeader :=
  match shift_divisor pos_bits, shift_divisor uv_bits with
  | some pd, some ud =>
    some { magic := ['O', 'P', 'T', 'M'],
           group_count := group_count,
           vertex_count := vertex_count,
           index_count := index_count,
           vertex_data_size := vertex_data_size,
           index_data_size := index_data_size,
           pos_offset := pos_offset,
           pos_scale := F32.div pos_scale (F32.fin (pd : ℚ)),
           uv_offset := uv_offset,
           uv_scale := (F32.div uv_scale.1 (F32.fin (ud : ℚ)),
                        F32.div uv_scale.2 (F32.fin (ud : ℚ))),
           reserved := (0, 0) }
  | _, _ => none

/-- For shift amounts up to 30 the i32 shift-and-subtract computes exactly
    `2 ^ bits - 1` with no overflow. -/
theorem i32_shl_one_eq (bits : Nat) (h : bits ≤ 30) :
    i32_shl_one bits = some ((2 : Int) ^ bits) := by
  unfold i32_shl_one
  rw [if_pos (show bits < 32 by omega)]
  congr 1
  have h0 : (0 : Int) < 2 ^ bits := pow_pos (by norm_num) bits
  have h2 : (2 : Int) ^ bits ≤ 2 ^ 30 := pow_le_pow_right₀ (by norm_num) h
  norm_num at h2
  omega

/-- For shift amounts up to 30 the divisor is exactly `2 ^ bits - 1`. -/
theorem shift_divisor_eq (bits : Nat) (h : bits ≤ 30) :
    shift_divisor bits = some ((2 : Int) ^ bits - 1) := by
  unfold shift_divisor
  rw [i32_shl_one_eq bits h]
  show i32_sub_checked ((2 : Int) ^ bits) 1 = some ((2 : Int) ^ bits - 1)
  have h0 : (0 : Int) < 2 ^ bits := pow_pos (by norm_num) bits
  have h2 : (2 : Int) ^ bits ≤ 2 ^ 30 := pow_le_pow_right₀ (by norm_num) h
  norm_num at h2
  unfold i32_sub_checked
  rw [if_pos (by omega)]

/-- Claim C6 (counterexample): `pos_bits = 31` is not safe.  The shift
    `1 << 31` yields `i32::MIN` (no panic), but the subtraction
    `i32::MIN - 1` overflows i32, so the divisor computation — and with it
    `EncodeHeader::new` — fails with an arithmetic overflow in debug builds. -/
theorem encode_header_divisor_overflow_at_31 :
    shift_divisor 31 = none ∧
    EncodeHeader.new 0 0 0 0 0 (F32.fin 0, F32.fin 0, F32.fin 0) (F32.fin 0)
      (F32.fin 0, F32.fin 0) (F32.fin 0, F32.fin 0) 31 1 = none := by
  constructor
  · decide
  · unfold EncodeHeader.new
    rw [show shift_divisor 31 = none by decide]

/-- Claim C6 (amended): for every bit count in `[1, 30]` the divisor
    computation neither overflows i32 nor produces a zero divisor, and
    `EncodeHeader::new` completes without arithmetic failure for `pos_bits`
    and `uv_bits` in that range.  (At 31 the subtraction overflows, see the
    counterexample.) -/
theorem encode_header_divisor_safe_range (bits : Nat) (h1 : 1 ≤ bits) (h30 : bits ≤ 30)
    (gc vc ic vds ids pb ub : Nat) (hp1 : 1 ≤ pb) (hp30 : pb ≤ 30) (hu1 : 1 ≤ ub)
    (hu30 : ub ≤ 30) (po : F32 × F32 × F32) (psc : F32) (uo usc : F32 × F32) :
    shift_divisor bits = some ((2 : Int) ^ bits - 1) ∧
    (2 : Int) ^ bits - 1 ≠ 0 ∧
    (EncodeHeader.new gc vc ic vds ids po psc uo usc pb ub).isSome = true := by
  refine ⟨shift_divisor_eq bits h30, ?_, ?_⟩
  · have h2 : (2 : Int) ≤ 2 ^ bits := by
      calc (2 : Int) = 2 ^ 1 := by norm_num
      _ ≤ 2 ^ bits := pow_le_pow_right₀ (by norm_num) h1
    omega
  · unfold EncodeHeader.new
    rw [shift_divisor_eq pb hp30, shift_divisor_eq ub hu30]
    rfl

/-- Claim C6 (witness): at `bits = 8` the divisor is `255` and the header
    construction completes. -/
theorem encode_header_divisor_safe_range_witness :
    shift_divisor 8 = some 255 ∧ (255 : Int) ≠ 0 ∧
    (EncodeHeader.new 1 2 3 4 5 (F32.fin 0, F32.fin 0, F32.fin 0) (F32.fin 255)
      (F32.fin 0, F32.fin 0) (F32.fin 3, F32.fin 5) 8 8).isSome = true := by
  have h := encode_header_divisor_safe_range 8 (by omega) (by omega) 1 2 3 4 5 8 8
    (by omega) (by omega) (by omega) (by omega) (F32.fin 0, F32.fin 0, F32.fin 0)
    (F32.fin 255) (F32.fin 0, F32.fin 0) (F32.fin 3, F32.fin 5)
  refine ⟨?_, by norm_num, h.2.2⟩
  rw [h.1]
  norm_num

/-- Claim C5: whenever the divisors compute (bit counts at most 30),
    `EncodeHeader::new` stores the magic literal `OPTM`, all counts, sizes
    and offsets verbatim, zero-filled reserved words, `pos_scale` divided by
    `(2 ^ pos_bits - 1)` cast to float, and each `uv_scale` component
    divided independently by `(2 ^ uv_bits - 1)`. -/
theorem encode_header_new_fields (gc vc ic vds ids : Nat) (po : F32 × F32 × F32)
    (psc : F32) (uo usc : F32 × F32) (pb ub : Nat) (hp : pb ≤ 30) (hu : ub ≤ 30) :
    EncodeHeader.new gc vc ic vds ids po psc uo usc pb ub =
      some { magic := ['O', 'P', 'T', 'M'],
             group_count := gc,
             vertex_count := vc,
             index_count := ic,
             vertex_data_size := vds,
             index_data_size := ids,
             pos_offset := po,
             pos_scale := F32.div psc (F32.fin ((2 : ℚ) ^ pb - 1)),
             uv_offset := uo,
             uv_scale := (F32.div usc.1 (F32.fin ((2 : ℚ) ^ ub - 1)),
                          F32.div usc.2 (F32.fin ((2 : ℚ) ^ ub - 1))),
             reserved := (0, 0) } := by
  unfold EncodeHeader.new
  rw [shift_divisor_eq pb hp, shift_divisor_eq ub hu]
  have hcast : ∀ b : Nat, (((2 : Int) ^ b - 1 : Int) : ℚ) = (2 : ℚ) ^ b - 1 := by
    intro b
    push_cast
    ring
  show some _ = some _
  simp only [hcast]

/-- Claim C5 (witness): with `pos_bits = 8` and raw `pos_scale = 255` the
    stored scale is exactly `1`; with `uv_bits = 1` the divisor is `1` and
    the stored UV scales are unchanged; magic, counts, offsets and reserved
    are stored as claimed. -/
theorem encode_header_new_fields_witness :
    EncodeHeader.new 1 2 3 4 5 (F32.fin 0, F32.fin 0, F32.fin 0) (F32.fin 255)
      (F32.fin 0, F32.fin 0) (F32.fin 4, F32.fin 6) 8 1 =
      some { magic := ['O', 'P', 'T', 'M'],
             group_count := 1,
             vertex_count := 2,
             index_count := 3,
             vertex_data_size := 4,
             index_data_size := 5,
             pos_offset := (F32.fin 0, F32.fin 0, F32.fin 0),
             pos_scale := F32.fin 1,
             uv_offset := (F32.fin 0, F32.fin 0),
             uv_scale := (F32.fin 4, F32.fin 6),
             reserved := (0, 0) } := by
  rw [encode_header_new_fields 1 2 3 4 5 (F32.fin 0, F32.fin 0, F32.fin 0) (F32.fin 255)
    (F32.fin 0, F32.fin 0) (F32.fin 4, F32.fin 6) 8 1 (by omega) (by omega)]
  norm_num [F32.div]

/-- Modelled from the spec: the error taxonomy of section 7.  `crate::Error`
    is declared in the crate root, whose source file is not part of the
    provided sources; per the spec a MemoryError carries a message and a
    NativeError carries the codec's opaque status code. -/
inductive Error where
  | memory (msg : String)
  | native (code : Int)
deriving DecidableEq

/-- Shape of the native decode operations (`meshopt_decodeIndexBuffer` /
    `meshopt_decodeVertexBuffer`): given the caller-allocated destination
    buffer, the element count, the element width and the encoded bytes, the
    call returns a status code and the new buffer contents; writing through
    the destination pointer cannot change the allocation, so the new contents
    have the buffer's length. -/
def DecodeFFI (T : Type) :=
  (buf : List T) → (count : Nat) → (width : Nat) → (encoded : List Nat) →
    Int × { l : List T // l.length = buf.length }

/-- Shape of `meshopt_encodeIndexBuffer`: given the destination byte buffer
    and the source indices, returns the number of bytes written and the new
    buffer contents (same allocation, hence same length). -/
def EncodeIndexFFI :=
  (buf : List Nat) → (indices : List Nat) → Nat × { l : List Nat // l.length = buf.length }

/-- Shape of `meshopt_encodeVertexBuffer`: like the index encoder but with
    opaque vertex elements and an explicit element width. -/
def EncodeVertexFFI (V : Type) :=
  (buf : List Nat) → (vertices : List V) → (width : Nat) →
    Nat × { l : List Nat // l.length = buf.length }

/-- Rust `Vec::resize(n, x)`: truncate to `n` elements, or pad with `x` up
    to `n` elements. -/
def vec_resize {α : Type} (l : List α) (n : Nat) (x : α) : List α :=
  l.take n ++ List.replicate (n - l.length) x

/-- `vec_resize` always produces exactly `n` elements. -/
theorem vec_resize_length {α : Type} (l : List α) (n : Nat) (x : α) :
    (vec_resize l n x).length = n := by
  simp [vec_resize]
  omega

/-- When the requested size does not exceed the current length, `vec_resize`
    is plain truncation. -/
theorem vec_resize_of_le {α : Type} (l : List α) (n : Nat) (x : α) (h : n ≤ l.length) :
    vec_resize l n x = l.take n := by
  simp [vec_resize, Nat.sub_eq_zero_of_le h]

/-- `decode_index_buffer` from `src/encoding.rs`.  `size_of_t` stands for
    `mem::size_of::<T>()` and `dflt` for `Default::default()`; the native
    codec is the `ffi` argument. -/
def decode_index_buffer (T : Type) (dflt : T) (size_of_t : Nat) (ffi : DecodeFFI T)
    (encoded : List Nat) (index_count : Nat) : Except Error (List T) :=
  if size_of_t = 2 ∨ size_of_t = 4 then
    let result : List T := List.replicate index_count dflt
    let r := ffi result index_count size_of_t encoded
    if r.1 = 0 then Except.ok r.2.val else Except.error (Error.native r.1)
  else
    Except.error (Error.memory "size of result type must be 2 or 4 bytes wide")

/-- `decode_vertex_buffer` from `src/encoding.rs`: no width restriction. -/
def decode_vertex_buffer (T : Type) (dflt : T) (size_of_t : Nat) (ffi : DecodeFFI T)
    (encoded : List Nat) (vertex_count : Nat) : Except Error (List T) :=
  let result : List T := List.replicate vertex_count dflt
  let r := ffi result vertex_count size_of_t encoded
  if r.1 = 0 then Except.ok r.2.val else Except.error (Error.native r.1)

/-- `encode_index_buffer` from `src/encoding.rs`: ask the codec for a bound,
    allocate a zero-filled buffer of that size, encode, and resize to the
    number of bytes actually written. -/
def encode_index_buffer (bound_ffi : Nat → Nat → Nat) (ffi : EncodeIndexFFI)
    (indices : List Nat) (vertex_count : Nat) : Except Error (List Nat) :=
  let bounds := bound_ffi indices.length vertex_count
  let result : List Nat := List.replicate bounds 0
  let r := ffi result indices
  Except.ok (vec_resize r.2.val r.1 0)

/-- `encode_vertex_buffer` from `src/encoding.rs`: like the index encoder,
    parameterized by the element width `size_of_v = mem::size_of::<T>()`. -/
def encode_vertex_buffer (V : Type) (size_of_v : Nat) (bound_ffi : Nat → Nat → Nat)
    (ffi : EncodeVertexFFI V) (vertices : List V) : Except Error (List Nat) :=
  let bounds := bound_ffi vertices.length size_of_v
  let result : List Nat := List.replicate bounds 0
  let r := ffi result vertices size_of_v
  Except.ok (vec_resize r.2.val r.1 0)

/-- Claim C2: for any element width other than 2 or 4 bytes,
    `decode_index_buffer` returns the declared MemoryError, for every encoded
    input, every count and every codec — in particular the result does not
    depend on the codec, which is never consulted. -/
theorem decode_index_buffer_width_guard (T : Type) (dflt : T) (size_of_t : Nat)
    (ffi : DecodeFFI T) (encoded : List Nat) (index_count : Nat)
    (h2 : size_of_t ≠ 2) (h4 : size_of_t ≠ 4) :
    decode_index_buffer T dflt size_of_t ffi encoded index_count =
      Except.error (Error.memory "size of result type must be 2 or 4 bytes wide") ∧
    (∀ ffi2 : DecodeFFI T,
      decode_index_buffer T dflt size_of_t ffi encoded index_count =
        decode_index_buffer T dflt size_of_t ffi2 encoded index_count) := by
  have hguard : ¬(size_of_t = 2 ∨ size_of_t = 4) := by
    intro h
    rcases h with h | h
    · exact h2 h
    · exact h4 h
  constructor
  · unfold decode_index_buffer
    rw [if_neg hguard]
  · intro ffi2
    unfold decode_index_buffer
    rw [if_neg hguard, if_neg hguard]

/-- Claim C2 (witness): a 1-byte element type is rejected with the declared
    message, for a concrete codec that would otherwise succeed. -/
theorem decode_index_buffer_width_guard_witness :
    decode_index_buffer Nat 0 1 (fun buf _ _ _ => (0, ⟨buf, rfl⟩)) [3, 1] 5 =
      Except.error (Error.memory "size of result type must be 2 or 4 bytes wide") :=
  (decode_index_buffer_width_guard Nat 0 1 (fun buf _ _ _ => (0, ⟨buf, rfl⟩)) [3, 1] 5
    (by omega) (by omega)).1

/-- Claim C8: with a valid element width, `decode_index_buffer` (and
    `decode_vertex_buffer` with any width) returns `Err(NativeError(code))`
    exactly when the codec's status code is non-zero, carrying that code
    unmodified; on status zero it returns the codec-filled sequence as-is,
    with exactly `index_count` (resp. `vertex_count`) elements. -/
theorem decode_status_translation (T : Type) (dflt : T) (size_of_t : Nat)
    (ffi : DecodeFFI T) (encoded : List Nat) (index_count : Nat)
    (hw : size_of_t = 2 ∨ size_of_t = 4) (T2 : Type) (dflt2 : T2) (size2 : Nat)
    (ffi2 : DecodeFFI T2) (encoded2 : List Nat) (vertex_count : Nat) :
    ((ffi (List.replicate index_count dflt) index_count size_of_t encoded).1 = 0 →
      decode_index_buffer T dflt size_of_t ffi encoded index_count =
        Except.ok (ffi (List.replicate index_count dflt) index_count size_of_t
          encoded).2.val ∧
      (ffi (List.replicate index_count dflt) index_count size_of_t
        encoded).2.val.length = index_count) ∧
    ((ffi (List.replicate index_count dflt) index_count size_of_t encoded).1 ≠ 0 →
      decode_index_buffer T dflt size_of_t ffi encoded index_count =
        Except.error (Error.native
          (ffi (List.replicate index_count dflt) index_count size_of_t encoded).1)) ∧
    ((ffi2 (List.replicate vertex_count dflt2) vertex_count size2 encoded2).1 = 0 →
      decode_vertex_buffer T2 dflt2 size2 ffi2 encoded2 vertex_count =
        Except.ok (ffi2 (List.replicate vertex_count dflt2) vertex_count size2
          encoded2).2.val ∧
      (ffi2 (List.replicate vertex_count dflt2) vertex_count size2
        encoded2).2.val.length = vertex_count) ∧
    ((ffi2 (List.replicate vertex_count dflt2) vertex_count size2 encoded2).1 ≠ 0 →
      decode_vertex_buffer T2 dflt2 size2 ffi2 encoded2 vertex_count =
        Except.error (Error.native
          (ffi2 (List.replicate vertex_count dflt2) vertex_count size2 encoded2).1)) := by
  have hidx : decode_index_buffer T dflt size_of_t ffi encoded index_count =
      (if (ffi (List.replicate index_count dflt) index_count size_of_t encoded).1 = 0
       then Except.ok (ffi (List.replicate index_count dflt) index_count size_of_t
         encoded).2.val
       else Except.error (Error.native
         (ffi (List.replicate index_count dflt) index_count size_of_t encoded).1)) := by
    unfold decode_index_buffer
    rw [if_pos hw]
  have hvtx : decode_vertex_buffer T2 dflt2 size2 ffi2 encoded2 vertex_count =
      (if (ffi2 (List.replicate vertex_count dflt2) vertex_count size2 encoded2).1 = 0
       then Except.ok (ffi2 (List.replicate vertex_count dflt2) vertex_count size2
         encoded2).2.val
       else Except.error (Error.native
         (ffi2 (List.replicate vertex_count dflt2) vertex_count size2 encoded2).1)) := rfl
  have hli : (ffi (List.replicate index_count dflt) index_count size_of_t
      encoded).2.val.length = index_count :=
    (ffi (List.replicate index_count dflt) index_count size_of_t
      encoded).2.property.trans (List.length_replicate _ _)
  have hlv : (ffi2 (List.replicate vertex_count dflt2) vertex_count size2
      encoded2).2.val.length = vertex_count :=
    (ffi2 (List.replicate vertex_count dflt2) vertex_count size2
      encoded2).2.property.trans (List.length_replicate _ _)
  refine ⟨?_, ?_, ?_, ?_⟩
  · intro h
    rw [hidx, if_pos h]
    exact ⟨rfl, hli⟩
  · intro h
    rw [hidx, if_neg h]
  · intro h
    rw [hvtx, if_pos h]
    exact ⟨rfl, hlv⟩
  · intro h
    rw [hvtx, if_neg h]

/-- Claim C8 (witness): a status-0 codec yields the filled 3-element result;
    a status-5 codec on vertex decode yields `NativeError(5)`. -/
theorem decode_status_translation_witness :
    decode_index_buffer Nat 0 2 (fun buf _ _ _ => (0, ⟨buf, rfl⟩)) [9] 3 =
      Except.ok [0, 0, 0] ∧
    decode_vertex_buffer Nat 0 7 (fun buf _ _ _ => (5, ⟨buf, rfl⟩)) [9] 2 =
      Except.error (Error.native 5) := by
  have h := decode_status_translation Nat 0 2 (fun buf _ _ _ => (0, ⟨buf, rfl⟩)) [9] 3
    (Or.inl rfl) Nat 0 7 (fun buf _ _ _ => (5, ⟨buf, rfl⟩)) [9] 2
  constructor
  · have h1 := (h.1 rfl).1
    rw [h1]
    rfl
  · have h2 := h.2.2.2 (by norm_num)
    rw [h2]

/-- Claim C9: the encode paths never return an error: for every codec and
    every input they return `Ok` of a byte sequence whose length is exactly
    the number of bytes the codec reports written; when the codec respects
    its own bound, that length is at most the bound and the buffer is the
    truncation of the codec-filled buffer to the reported size. -/
theorem encode_never_errors_length_bound (bound_idx : Nat → Nat → Nat)
    (ffi_idx : EncodeIndexFFI) (indices : List Nat) (vertex_count : Nat)
    (V : Type) (size_of_v : Nat) (bound_v : Nat → Nat → Nat) (ffi_v : EncodeVertexFFI V)
    (vertices : List V) :
    ∃ out : List Nat,
      encode_index_buffer bound_idx ffi_idx indices vertex_count = Except.ok out ∧
      out.length =
        (ffi_idx (List.replicate (bound_idx indices.length vertex_count) 0) indices).1 ∧
      ((ffi_idx (List.replicate (bound_idx indices.length vertex_count) 0) indices).1 ≤
          bound_idx indices.length vertex_count →
        out.length ≤ bound_idx indices.length vertex_count ∧
        out = ((ffi_idx (List.replicate (bound_idx indices.length vertex_count) 0)
          indices).2.val).take
            ((ffi_idx (List.replicate (bound_idx indices.length vertex_count) 0)
              indices).1)) ∧
      ∃ outv : List Nat,
        encode_vertex_buffer V size_of_v bound_v ffi_v vertices = Except.ok outv ∧
        outv.length =
          (ffi_v (List.replicate (bound_v vertices.length size_of_v) 0) vertices
            size_of_v).1 ∧
        ((ffi_v (List.replicate (bound_v vertices.length size_of_v) 0) vertices
            size_of_v).1 ≤ bound_v vertices.length size_of_v →
          outv.length ≤ bound_v vertices.length size_of_v ∧
          outv = ((ffi_v (List.replicate (bound_v vertices.length size_of_v) 0) vertices
            size_of_v).2.val).take
              ((ffi_v (List.replicate (bound_v vertices.length size_of_v) 0) vertices
                size_of_v).1)) := by
  have hpi : (ffi_idx (List.replicate (bound_idx indices.length vertex_count) 0)
      indices).2.val.length = bound_idx indices.length vertex_count :=
    (ffi_idx (List.replicate (bound_idx indices.length vertex_count) 0)
      indices).2.property.trans (List.length_replicate _ _)
  have hpv : (ffi_v (List.replicate (bound_v vertices.length size_of_v) 0) vertices
      size_of_v).2.val.length = bound_v vertices.length size_of_v :=
    (ffi_v (List.replicate (bound_v vertices.length size_of_v) 0) vertices
      size_of_v).2.property.trans (List.length_replicate _ _)
  refine ⟨_, rfl, vec_resize_length _ _ _, ?_, _, rfl, vec_resize_length _ _ _, ?_⟩
  · intro h
    constructor
    · rw [vec_resize_length]
      exact h
    · exact vec_resize_of_le _ _ _ (by omega)
  · intro h
    constructor
    · rw [vec_resize_length]
      exact h
    · exact vec_resize_of_le _ _ _ (by omega)

/-- Claim C9 (witness): with a codec that reports exactly the bound (3 bytes
    here), index encoding returns `Ok` with a 3-byte buffer, within bound. -/
theorem encode_never_errors_length_bound_witness :
    ∃ out : List Nat,
      encode_index_buffer (fun a b => a + b) (fun buf _ => (buf.length, ⟨buf, rfl⟩))
        [1, 2] 1 = Except.ok out ∧
      out.length ≤ 3 := by
  obtain ⟨out, h1, h2, h3, _⟩ := encode_never_errors_length_bound (fun a b => a + b)
    (fun buf _ => (buf.length, ⟨buf, rfl⟩)) [1, 2] 1 Nat 4 (fun a b => a * b)
    (fun buf _ _ => (0, ⟨buf, rfl⟩)) [7]
  refine ⟨out, h1, ?_⟩
  have h4 := (h3 (by simp)).1
  simpa using h4
